import Mathlib

/-!
Verification of the animation core of `bevy-toolbox` (`src/animation.rs`).

Shallow embedding conventions:
* `f32` values (progress, durations in seconds, lens endpoints) are modelled
  as `ℚ`.  `Duration::as_secs_f32()` is modelled by storing the duration
  directly as a rational number of seconds.
* The Bevy `Entity` is an opaque id, modelled as `ℕ`.
* The event sink `Events<AnimationCompleted>` is modelled by returning the
  list of events emitted during a call, in emission order.
* The mutable lens target (`Vec3` field of a `Transform`) is modelled by a
  single rational component; the Rust lerp is componentwise, so one
  component captures it.
* The recursive `SequenceAnimator::tick` is modelled with explicit fuel;
  running out of fuel and the out-of-bounds indexing panic are separate
  outcomes so that termination and bounds safety can be stated precisely.
-/

namespace BevyToolbox

/-- `AnimationCurve` from `animation.rs`.  The `EaseFunction` variant
delegates to the external `interpolation` crate, so the ease function is
kept abstract as a rational function, exactly like `Custom`. -/
inductive AnimationCurve : Type where
  | EaseFunction : (ℚ → ℚ) → AnimationCurve
  | Linear : AnimationCurve
  | Step : ℚ → AnimationCurve
  | Custom : (ℚ → ℚ) → AnimationCurve

/-- `AnimationCurve::eval`.  The `Step` arm is `if *cutoff < progress { 0.0 } else { 1.0 }`. -/
def AnimationCurve.eval : AnimationCurve → ℚ → ℚ
  | .EaseFunction f, progress => f progress
  | .Linear, progress => progress
  | .Step cutoff, progress => if cutoff < progress then 0 else 1
  | .Custom f, progress => f progress

/-- `Animation { duration: Duration, curve: AnimationCurve }`;
`duration` is the value of `duration.as_secs_f32()`. -/
structure Animation : Type where
  duration : ℚ
  curve : AnimationCurve

/-- `Delay { duration: Duration }`. -/
structure Delay : Type where
  duration : ℚ

/-- `AnimationDirection`. -/
inductive AnimationDirection : Type where
  | Forward : AnimationDirection
  | Backward : AnimationDirection
deriving DecidableEq

/-- `AnimationDirection::start_point`. -/
def AnimationDirection.start_point : AnimationDirection → ℚ
  | .Forward => 0
  | .Backward => 1

/-- `AnimationDirection::factor`. -/
def AnimationDirection.factor : AnimationDirection → ℚ
  | .Forward => 1
  | .Backward => -1

/-- `impl Not for AnimationDirection` (`!direction`). -/
def AnimationDirection.not : AnimationDirection → AnimationDirection
  | .Forward => .Backward
  | .Backward => .Forward

/-- `AnimationState`. -/
structure AnimationState : Type where
  completed : Bool
  direction : AnimationDirection
  progress : ℚ

/-- `Repeat`. -/
inductive Repeat : Type where
  | Once : Repeat
  | Always : Repeat
  | Mirrored : Repeat
deriving DecidableEq

/-- The two canonical lenses (`TransformTranslationLens`, `TransformScaleLens`)
both store a start and end value and write
`start + (end - start) * progress` into the target, ignoring the target's
previous value.  One rational component is modelled. -/
structure Lens : Type where
  start : ℚ
  stop : ℚ

/-- `AnimationLens::lerp`: the Rust lens overwrites the target field with
`start + (end - start) * progress`. -/
def Lens.lerp (lens : Lens) (_target : ℚ) (progress : ℚ) : ℚ :=
  lens.start + (lens.stop - lens.start) * progress

/-- `AnimationCompleted` event. -/
structure AnimationCompleted : Type where
  entity : ℕ
  animator_id : Option ℕ
  animation_id : ℕ
deriving DecidableEq

/-- Single-step `Animator<TLens>`. -/
structure Animator : Type where
  id : Option ℕ
  state : AnimationState
  animation : Animation
  rpt : Repeat
  lens : Lens

/-- `Animator::new`. -/
def Animator.new (animation : Animation) (rpt : Repeat) (lens : Lens) : Animator :=
  { id := none
    state := { completed := false, direction := .Forward, progress := 0 }
    animation := animation
    rpt := rpt
    lens := lens }

/-- `Animator::new_with_direction`. -/
def Animator.new_with_direction (animation : Animation) (direction : AnimationDirection)
    (rpt : Repeat) (lens : Lens) : Animator :=
  { id := none
    state := { completed := false, direction := direction, progress := direction.start_point }
    animation := animation
    rpt := rpt
    lens := lens }

/-- Result of one `Animator::tick` call: the updated animator, the updated
target value, the events sent, and the returned `f32` (`time_progress`). -/
structure TickResult : Type where
  animator : Animator
  target : ℚ
  events : List AnimationCompleted
  ret : ℚ

/-- `Animator::tick`.  Mirrors the Rust body: early return on `completed`;
integrate `progress += (elapsed / duration) * factor`; apply the `Repeat`
policy (`Once` clamps, completes and sends an event; `Always` wraps by
`0.0 + over` / `1.0 - over`; `Mirrored` reflects and flips direction);
finally evaluate the curve on the (unclamped) post-wrap progress and run
the lens. -/
def Animator.tick (a : Animator) (target : ℚ) (time_elapsed : ℚ) (entity : ℕ) : TickResult :=
  if a.state.completed then
    { animator := a
      target := target
      events := []
      ret := match a.state.direction with
             | .Forward => 1
             | .Backward => 0 }
  else
    let full_duration := a.animation.duration
    let progress_made := time_elapsed / full_duration
    let p1 := a.state.progress + progress_made * a.state.direction.factor
    let next : AnimationState × List AnimationCompleted :=
      match a.rpt with
      | .Once =>
        if 1 < p1 then
          ({ completed := true, direction := a.state.direction, progress := 1 },
           [{ entity := entity, animator_id := a.id, animation_id := 0 }])
        else if p1 < 0 then
          ({ completed := true, direction := a.state.direction, progress := 0 },
           [{ entity := entity, animator_id := a.id, animation_id := 0 }])
        else
          ({ a.state with progress := p1 }, [])
      | .Always =>
        if 1 < p1 then
          ({ a.state with progress := 0 + (p1 - 1) }, [])
        else if p1 < 0 then
          ({ a.state with progress := 1 - (0 - p1) }, [])
        else
          ({ a.state with progress := p1 }, [])
      | .Mirrored =>
        if 1 < p1 then
          ({ a.state with progress := 1 - (p1 - 1), direction := a.state.direction.not }, [])
        else if p1 < 0 then
          ({ a.state with progress := 0 + (0 - p1), direction := a.state.direction.not }, [])
        else
          ({ a.state with progress := p1 }, [])
    let time_progress := next.1.progress
    let anim_progress := a.animation.curve.eval time_progress
    { animator := { a with state := next.1 }
      target := a.lens.lerp target anim_progress
      events := next.2
      ret := time_progress }

/-- `AnimationStep<TLens>`. -/
inductive AnimationStep : Type where
  | Animation : Animation → Lens → AnimationStep
  | Delay : Delay → AnimationStep

/-- The duration (in seconds) of a step, `anim.duration` or `delay.duration`. -/
def AnimationStep.duration : AnimationStep → ℚ
  | .Animation anim _ => anim.duration
  | .Delay delay => delay.duration

/-- `SequenceAnimator<TLens>`. -/
structure SequenceAnimator : Type where
  id : Option ℕ
  state : AnimationState
  current : ℕ
  seq : List AnimationStep
  rpt : Repeat

/-- `SequenceAnimator::new`: `completed` iff the step list is empty,
direction `Forward`, progress `0.0`, `current = 0`. -/
def SequenceAnimator.new (seq : List AnimationStep) (rpt : Repeat) : SequenceAnimator :=
  { id := none
    state := { completed := if seq.isEmpty then true else false
               direction := .Forward
               progress := 0 }
    current := 0
    seq := seq
    rpt := rpt }

/-- `SequenceAnimator::new_with_direction`: `current` is `0` for `Forward`
and `seq.len() - 1` for `Backward`.  For `Backward` with an empty list the
Rust `usize` subtraction `seq.len() - 1` underflows (a panic under overflow
checks), so construction fails; this is modelled by `none`. -/
def SequenceAnimator.new_with_direction (seq : List AnimationStep)
    (direction : AnimationDirection) (rpt : Repeat) : Option SequenceAnimator :=
  match direction, seq with
  | .Backward, [] => none
  | _, _ =>
    some
      { id := none
        state := { completed := if seq.isEmpty then true else false
                   direction := direction
                   progress := direction.start_point }
        current := match direction with
                   | .Forward => 0
                   | .Backward => seq.length - 1
        seq := seq
        rpt := rpt }

/-- `SequenceAnimator::next_animation`: the twelve-case advance on
`(repeat, direction, current)`.  Only ever invoked by `tick` after a
successful index into `seq`, so `seq` is nonempty at every call site
(`last = seq.len() - 1` would underflow otherwise). -/
def SequenceAnimator.next_animation (a : SequenceAnimator) : SequenceAnimator :=
  let last := a.seq.length - 1
  match a.rpt, a.state.direction with
  | .Once, .Forward =>
    if a.current = last then
      { a with state := { a.state with completed := true, progress := 1 } }
    else
      { a with current := a.current + 1, state := { a.state with progress := 0 } }
  | .Once, .Backward =>
    if a.current = 0 then
      { a with state := { a.state with completed := true, progress := 0 } }
    else
      { a with current := a.current - 1, state := { a.state with progress := 1 } }
  | .Always, .Forward =>
    if a.current = last then
      { a with current := 0, state := { a.state with progress := 0 } }
    else
      { a with current := a.current + 1, state := { a.state with progress := 0 } }
  | .Always, .Backward =>
    if a.current = 0 then
      { a with current := last, state := { a.state with progress := 1 } }
    else
      { a with current := a.current - 1, state := { a.state with progress := 1 } }
  | .Mirrored, .Forward =>
    if a.current = last then
      { a with state := { a.state with direction := .Backward, progress := 1 } }
    else
      { a with current := a.current + 1, state := { a.state with progress := 0 } }
  | .Mirrored, .Backward =>
    if a.current = 0 then
      { a with state := { a.state with direction := .Forward, progress := 0 } }
    else
      { a with current := a.current - 1, state := { a.state with progress := 1 } }

/-- One non-recursive layer of `SequenceAnimator::tick`: index the current
step (`none` models the Rust out-of-bounds panic on `self.seq[self.current]`),
integrate progress, run curve+lens on the clamped progress for `Animation`
steps (no lens for `Delay`), and on a boundary crossing send the completion
event (carrying the pre-advance `current`), call `next_animation` and report
the overtime `|excess| * duration`.  Returns
`(updated animator, updated target, events, overtime)`. -/
def SequenceAnimator.tickStep (a : SequenceAnimator) (target : ℚ) (time_elapsed : ℚ)
    (entity : ℕ) : Option (SequenceAnimator × ℚ × List AnimationCompleted × ℚ) :=
  match a.seq[a.current]? with
  | none => none
  | some (.Animation anim lens) =>
    let full_duration := anim.duration
    let progress_made := time_elapsed / full_duration
    let p1 := a.state.progress + progress_made * a.state.direction.factor
    let time_progress := if p1 < 0 then 0 else if 1 < p1 then 1 else p1
    let anim_progress := anim.curve.eval time_progress
    let target1 := lens.lerp target anim_progress
    let a1 : SequenceAnimator := { a with state := { a.state with progress := p1 } }
    if 1 < p1 then
      some (a1.next_animation, target1,
            [{ entity := entity, animator_id := a.id, animation_id := a.current }],
            (p1 - 1) * full_duration)
    else if p1 < 0 then
      some (a1.next_animation, target1,
            [{ entity := entity, animator_id := a.id, animation_id := a.current }],
            (0 - p1) * full_duration)
    else
      some (a1, target1, [], 0)
  | some (.Delay delay) =>
    let delay_duration := delay.duration
    let progress_made := time_elapsed / delay_duration
    let p1 := a.state.progress + progress_made * a.state.direction.factor
    let a1 : SequenceAnimator := { a with state := { a.state with progress := p1 } }
    if 1 < p1 then
      some (a1.next_animation, target,
            [{ entity := entity, animator_id := a.id, animation_id := a.current }],
            (p1 - 1) * delay_duration)
    else if p1 < 0 then
      some (a1.next_animation, target,
            [{ entity := entity, animator_id := a.id, animation_id := a.current }],
            (0 - p1) * delay_duration)
    else
      some (a1, target, [], 0)

/-- Outcome of a `SequenceAnimator::tick` call in the fuel model:
`ok` (the call returned, with final animator, target and emitted events),
`outOfBounds` (the Rust indexing panic), or `fuelOut` (the fuel bound did
not cover the recursion depth; the Rust code has no such bound). -/
inductive TickOutcome : Type where
  | ok : SequenceAnimator → ℚ → List AnimationCompleted → TickOutcome
  | outOfBounds : TickOutcome
  | fuelOut : TickOutcome

/-- `SequenceAnimator::tick`, fuel-indexed.  Mirrors the Rust body: return
immediately when `completed`; otherwise run one `tickStep` layer and, when
`overtime != 0.0`, recursively re-tick with the overtime as the new elapsed
time, concatenating the emitted events in order. -/
def SequenceAnimator.tick : ℕ → SequenceAnimator → ℚ → ℚ → ℕ → TickOutcome
  | 0, _, _, _, _ => .fuelOut
  | Nat.succ n, a, target, time_elapsed, entity =>
    if a.state.completed then .ok a target []
    else
      match a.tickStep target time_elapsed entity with
      | none => .outOfBounds
      | some (a2, target2, events, overtime) =>
        if overtime ≠ 0 then
          match SequenceAnimator.tick n a2 target2 overtime entity with
          | .ok a3 target3 events3 => .ok a3 target3 (events ++ events3)
          | r => r
        else
          .ok a2 target2 events

/-- Projection of an `ok` outcome to the final `current` index. -/
def TickOutcome.currentOf : TickOutcome → Option ℕ
  | .ok a _ _ => some a.current
  | _ => none

/-- Projection of an `ok` outcome to the final progress. -/
def TickOutcome.progressOf : TickOutcome → Option ℚ
  | .ok a _ _ => some a.state.progress
  | _ => none

/-- Projection of an `ok` outcome to the final `completed` flag. -/
def TickOutcome.completedOf : TickOutcome → Option Bool
  | .ok a _ _ => some a.state.completed
  | _ => none

/-- Projection of an `ok` outcome to the list of emitted events. -/
def TickOutcome.eventsOf : TickOutcome → Option (List AnimationCompleted)
  | .ok _ _ events => some events
  | _ => none

/-- Modelled from the spec: the twelve-case `advance_step` table of
section 4.4, stated from the spec's own words.  Given the `Repeat` policy,
the direction, the current index and the last index it returns the next
`(current, progress, direction, completed)` tuple, to be compared with
`SequenceAnimator.next_animation`. -/
def advance_step_table (rpt : Repeat) (direction : AnimationDirection)
    (current last : ℕ) : ℕ × ℚ × AnimationDirection × Bool :=
  match rpt, direction with
  | .Once, .Forward =>
    if current = last then (current, 1, direction, true)
    else (current + 1, 0, direction, false)
  | .Once, .Backward =>
    if current = 0 then (current, 0, direction, true)
    else (current - 1, 1, direction, false)
  | .Always, .Forward =>
    if current = last then (0, 0, direction, false)
    else (current + 1, 0, direction, false)
  | .Always, .Backward =>
    if current = 0 then (last, 1, direction, false)
    else (current - 1, 1, direction, false)
  | .Mirrored, .Forward =>
    if current = last then (current, 1, .Backward, false)
    else (current + 1, 0, direction, false)
  | .Mirrored, .Backward =>
    if current = 0 then (current, 0, .Forward, false)
    else (current - 1, 1, direction, false)

/-- Entry states of a recursive overtime re-tick: after `next_animation`
the animator is either completed, or positioned at the start point of its
direction (progress `0` going forward, `1` going backward). -/
def entryOk (a : SequenceAnimator) : Prop :=
  a.state.completed = true ∨
  (a.state.direction = .Forward ∧ a.state.progress = 0) ∨
  (a.state.direction = .Backward ∧ a.state.progress = 1)

/-- A linear 0-to-1 lens used by the concrete instances below. -/
def linLens : Lens := { start := 0, stop := 1 }

/-- A 1-second linear animation. -/
def oneSecAnim : Animation := { duration := 1, curve := .Linear }

/-- Concrete instance for the overtime-conservation scenario: two 1-second
animation steps, `Repeat::Once`, forward. -/
def seqTwoOnce : SequenceAnimator :=
  SequenceAnimator.new [.Animation oneSecAnim linLens, .Animation oneSecAnim linLens] .Once

/-- A fresh 1-second `Repeat::Always` single-step animator. -/
def alwaysAnimator : Animator := Animator.new oneSecAnim .Always linLens

/-- A fresh 1-second `Repeat::Mirrored` single-step animator. -/
def mirroredAnimator : Animator := Animator.new oneSecAnim .Mirrored linLens

/-- A completed `Repeat::Once` animator state. -/
def onceDoneAnimator : Animator :=
  { id := none
    state := { completed := true, direction := .Forward, progress := 1 }
    animation := oneSecAnim
    rpt := .Once
    lens := linLens }

/-- A two-delay mirrored sequence used as a concrete witness input. -/
def seqTwoDelays : SequenceAnimator :=
  SequenceAnimator.new [.Delay { duration := 1 }, .Delay { duration := 1 }] .Mirrored

/-- A single-delay always-repeating sequence used as a concrete witness input. -/
def seqOneDelay : SequenceAnimator :=
  SequenceAnimator.new [.Delay { duration := 1 }] .Always

/-- C9: Step curve tie-break: for every cutoff `c` and progress `p`,
`Step(c)` evaluates to 1.0 when `p ≤ c` and to 0.0 when `c < p`; in
particular `Step(0.5)` evaluates to 1.0 at 0.5 and to 0.0 at 0.50001. -/
theorem step_curve_tie_break (c p : ℚ) :
    (p ≤ c → (AnimationCurve.Step c).eval p = 1) ∧
    (c < p → (AnimationCurve.Step c).eval p = 0) ∧
    (AnimationCurve.Step (1/2)).eval (1/2) = 1 ∧
    (AnimationCurve.Step (1/2)).eval (50001/100000) = 0 := by
  refine ⟨fun h => ?_, fun h => ?_, by norm_num [AnimationCurve.eval], by
    norm_num [AnimationCurve.eval]⟩
  · simp [AnimationCurve.eval, not_lt.mpr h]
  · simp [AnimationCurve.eval, h]

/-- Witness for `step_curve_tie_break` at `c = 1/2`, `p = 1/4` and `p = 3/4`. -/
theorem step_curve_tie_break_witness :
    ((1 : ℚ)/4 ≤ 1/2 ∧ (AnimationCurve.Step (1/2)).eval (1/4) = 1) ∧
    ((1 : ℚ)/2 < 3/4 ∧ (AnimationCurve.Step (1/2)).eval (3/4) = 0) :=
  ⟨⟨by norm_num, (step_curve_tie_break (1/2) (1/4)).1 (by norm_num)⟩,
   ⟨by norm_num, (step_curve_tie_break (1/2) (3/4)).2.1 (by norm_num)⟩⟩

/-- C5: idempotence after completion: a `Repeat::Once` animator whose state
is `completed` returns the terminal progress (1.0 forward, 0.0 backward) on
every subsequent tick, leaves the animator state and the target unchanged,
and emits no event. -/
theorem once_completed_fixed_point (a : Animator) (target time_elapsed : ℚ) (entity : ℕ)
    (_hr : a.rpt = .Once) (hc : a.state.completed = true) :
    (a.tick target time_elapsed entity).animator = a ∧
    (a.tick target time_elapsed entity).target = target ∧
    (a.tick target time_elapsed entity).events = [] ∧
    (a.tick target time_elapsed entity).ret =
      (if a.state.direction = .Forward then 1 else 0) := by
  cases hdir : a.state.direction <;> simp [Animator.tick, hc, hdir]

/-- Witness for `once_completed_fixed_point` on a concrete completed animator. -/
theorem once_completed_fixed_point_witness :
    (onceDoneAnimator.tick 5 3 7).animator = onceDoneAnimator ∧
    (onceDoneAnimator.tick 5 3 7).target = 5 ∧
    (onceDoneAnimator.tick 5 3 7).events = [] ∧
    (onceDoneAnimator.tick 5 3 7).ret =
      (if onceDoneAnimator.state.direction = .Forward then 1 else 0) :=
  once_completed_fixed_point onceDoneAnimator 5 3 7 rfl rfl

/-- C7: a sequence animator built from an empty step list is completed
immediately after construction, and every subsequent tick (any positive
fuel, any elapsed time) returns with the animator and target unchanged and
no events emitted. -/
theorem empty_sequence_terminal (rpt : Repeat) (target time_elapsed : ℚ)
    (entity fuel : ℕ) :
    (SequenceAnimator.new [] rpt).state.completed = true ∧
    SequenceAnimator.tick (fuel + 1) (SequenceAnimator.new [] rpt) target time_elapsed entity =
      .ok (SequenceAnimator.new [] rpt) target [] := by
  refine ⟨rfl, ?_⟩
  simp [SequenceAnimator.tick, SequenceAnimator.new]

/-- C1: sequence overtime conservation: ticking the fresh two-step
one-second `Once` sequence once with elapsed time 1.5 s emits exactly one
completion event for step 0, moves `current` to step 1, and leaves step 1's
progress at 0.5 (the 0.5 s of overtime re-applied within the same call). -/
theorem sequence_overtime_conservation :
    (SequenceAnimator.tick 2 seqTwoOnce 0 (3/2) 42).currentOf = some 1 ∧
    (SequenceAnimator.tick 2 seqTwoOnce 0 (3/2) 42).progressOf = some (1/2) ∧
    (SequenceAnimator.tick 2 seqTwoOnce 0 (3/2) 42).completedOf = some false ∧
    (SequenceAnimator.tick 2 seqTwoOnce 0 (3/2) 42).eventsOf =
      some [{ entity := 42, animator_id := none, animation_id := 0 }] := by
  norm_num [SequenceAnimator.tick, SequenceAnimator.tickStep, seqTwoOnce, SequenceAnimator.new,
    SequenceAnimator.next_animation, AnimationDirection.factor, AnimationCurve.eval, Lens.lerp,
    linLens, oneSecAnim, TickOutcome.currentOf, TickOutcome.progressOf, TickOutcome.completedOf,
    TickOutcome.eventsOf, AnimationStep.duration]

/-- C10: `new_with_direction` with `Backward` requires a nonempty step list
(the `usize` computation `seq.len() - 1` underflows on an empty list, so
construction fails instead of yielding a completed animator); on every
nonempty list it starts at the last step with progress 1.0, not completed. -/
theorem backward_construction (rpt : Repeat) (seq : List AnimationStep) (h : seq ≠ []) :
    SequenceAnimator.new_with_direction [] .Backward rpt = none ∧
    ∃ a, SequenceAnimator.new_with_direction seq .Backward rpt = some a ∧
      a.current = seq.length - 1 ∧ a.state.progress = 1 ∧
      a.state.completed = false ∧ a.state.direction = .Backward := by
  refine ⟨rfl, ?_⟩
  match seq, h with
  | x :: xs, _ =>
    exact ⟨_, rfl, rfl, rfl, rfl, rfl⟩

/-- Witness for `backward_construction` on a one-delay list. -/
theorem backward_construction_witness :
    SequenceAnimator.new_with_direction [] .Backward .Once = none ∧
    ∃ a, SequenceAnimator.new_with_direction [.Delay { duration := 1 }] .Backward .Once = some a ∧
      a.current = [AnimationStep.Delay { duration := 1 }].length - 1 ∧
      a.state.progress = 1 ∧ a.state.completed = false ∧
      a.state.direction = .Backward :=
  backward_construction .Once [.Delay { duration := 1 }] (by simp)

/-- C6: Mirrored single-step wrap: when the integrated progress exits
`[0, 1]`, the direction flips exactly once, the post-wrap progress is the
reflection of the overshoot (`1 - overflow` above 1.0, the underflow
magnitude below 0.0), and no completion event is emitted. -/
theorem mirrored_wrap (a : Animator) (target time_elapsed : ℚ) (entity : ℕ)
    (hc : a.state.completed = false) (hr : a.rpt = .Mirrored) :
    (1 < a.state.progress + time_elapsed / a.animation.duration * a.state.direction.factor →
      (a.tick target time_elapsed entity).animator.state.direction = a.state.direction.not ∧
      (a.tick target time_elapsed entity).animator.state.progress =
        1 - (a.state.progress + time_elapsed / a.animation.duration * a.state.direction.factor - 1) ∧
      (a.tick target time_elapsed entity).events = []) ∧
    (a.state.progress + time_elapsed / a.animation.duration * a.state.direction.factor < 0 →
      (a.tick target time_elapsed entity).animator.state.direction = a.state.direction.not ∧
      (a.tick target time_elapsed entity).animator.state.progress =
        0 - (a.state.progress + time_elapsed / a.animation.duration * a.state.direction.factor) ∧
      (a.tick target time_elapsed entity).events = []) := by
  constructor
  · intro h
    simp [Animator.tick, hc, hr, h]
  · intro h
    have h2 : ¬(1 < a.state.progress +
        time_elapsed / a.animation.duration * a.state.direction.factor) := by linarith
    simp [Animator.tick, hc, hr, h, h2]

/-- Witness for `mirrored_wrap`: the fresh 1-second mirrored animator ticked
with elapsed 1.5 s overshoots to 1.5, flips to backward, and lands on 0.5. -/
theorem mirrored_wrap_witness :
    (mirroredAnimator.tick 0 (3/2) 7).animator.state.direction =
      mirroredAnimator.state.direction.not ∧
    (mirroredAnimator.tick 0 (3/2) 7).animator.state.progress =
      1 - (mirroredAnimator.state.progress +
        (3/2) / mirroredAnimator.animation.duration * mirroredAnimator.state.direction.factor - 1) ∧
    (mirroredAnimator.tick 0 (3/2) 7).events = [] :=
  (mirrored_wrap mirroredAnimator 0 (3/2) 7 rfl rfl).1
    (by norm_num [mirroredAnimator, Animator.new, oneSecAnim, AnimationDirection.factor])

/-- C3 counterexample: ticking the fresh 1-second `Repeat::Always` animator
once with elapsed time 2.5 s leaves progress 1.5, outside `[0, 1]`: the
`0.0 + over` wrap of `Animator::tick` reduces a multi-lap overflow only by
a single lap, not modulo 1.0. -/
theorem always_multilap_counterexample :
    (alwaysAnimator.tick 0 (5/2) 0).animator.state.progress = 3/2 ∧
    ¬(0 ≤ (alwaysAnimator.tick 0 (5/2) 0).animator.state.progress ∧
      (alwaysAnimator.tick 0 (5/2) 0).animator.state.progress ≤ 1) := by
  norm_num [Animator.tick, alwaysAnimator, Animator.new, oneSecAnim, linLens,
    AnimationDirection.factor, AnimationCurve.eval, Lens.lerp]

/-- C3 amended: for a single-step `Repeat::Always` animator with positive
duration and progress in `[0, 1]`, any tick whose elapsed time is at most
one duration (a single lap) leaves the post-tick progress within `[0, 1]`. -/
theorem always_single_lap_unit_interval (a : Animator) (target time_elapsed : ℚ)
    (entity : ℕ)
    (hc : a.state.completed = false) (hr : a.rpt = .Always)
    (hd : 0 < a.animation.duration)
    (hp0 : 0 ≤ a.state.progress) (hp1 : a.state.progress ≤ 1)
    (he0 : 0 ≤ time_elapsed) (he1 : time_elapsed ≤ a.animation.duration) :
    0 ≤ (a.tick target time_elapsed entity).animator.state.progress ∧
    (a.tick target time_elapsed entity).animator.state.progress ≤ 1 := by
  have hq0 : 0 ≤ time_elapsed / a.animation.duration := div_nonneg he0 hd.le
  have hq1 : time_elapsed / a.animation.duration ≤ 1 := (div_le_one hd).mpr he1
  cases hdir : a.state.direction <;>
    simp only [Animator.tick, hc, hr, hdir, AnimationDirection.factor, Bool.false_eq_true,
      if_false] <;>
    split_ifs with h1 h2 <;>
    constructor <;> simp <;> linarith

/-- Witness for `always_single_lap_unit_interval`: one full lap (elapsed =
duration = 1 s) on the fresh always-animator stays in `[0, 1]`. -/
theorem always_single_lap_unit_interval_witness :
    0 ≤ (alwaysAnimator.tick 0 1 0).animator.state.progress ∧
    (alwaysAnimator.tick 0 1 0).animator.state.progress ≤ 1 :=
  always_single_lap_unit_interval alwaysAnimator 0 1 0 rfl rfl
    (by norm_num [alwaysAnimator, Animator.new, oneSecAnim])
    (by norm_num [alwaysAnimator, Animator.new, oneSecAnim])
    (by norm_num [alwaysAnimator, Animator.new, oneSecAnim])
    (by norm_num) (by norm_num [alwaysAnimator, Animator.new, oneSecAnim])

lemma tick_zero (a : SequenceAnimator) (target time_elapsed : ℚ) (entity : ℕ) :
    SequenceAnimator.tick 0 a target time_elapsed entity = .fuelOut := rfl

lemma tick_succ (n : ℕ) (a : SequenceAnimator) (target time_elapsed : ℚ) (entity : ℕ) :
    SequenceAnimator.tick (n + 1) a target time_elapsed entity =
      if a.state.completed then .ok a target []
      else
        match a.tickStep target time_elapsed entity with
        | none => .outOfBounds
        | some (a2, target2, events, overtime) =>
          if overtime ≠ 0 then
            match SequenceAnimator.tick n a2 target2 overtime entity with
            | .ok a3 target3 events3 => .ok a3 target3 (events ++ events3)
            | r => r
          else .ok a2 target2 events := rfl

lemma tick_succ_step (n : ℕ) (a a2 : SequenceAnimator) (target t2 time_elapsed overtime : ℚ)
    (entity : ℕ) (evs : List AnimationCompleted)
    (hcomp : ¬a.state.completed = true)
    (hts : a.tickStep target time_elapsed entity = some (a2, t2, evs, overtime)) :
    SequenceAnimator.tick (n + 1) a target time_elapsed entity =
      if overtime ≠ 0 then
        match SequenceAnimator.tick n a2 t2 overtime entity with
        | .ok a3 t3 ev3 => .ok a3 t3 (evs ++ ev3)
        | r => r
      else .ok a2 t2 evs := by
  rw [tick_succ, if_neg hcomp, hts]

lemma next_animation_seq (a : SequenceAnimator) : a.next_animation.seq = a.seq := by
  simp only [SequenceAnimator.next_animation]
  cases hr : a.rpt <;> cases hdir : a.state.direction <;> split_ifs <;> rfl

lemma next_animation_current_lt (a : SequenceAnimator) (h : a.current < a.seq.length) :
    a.next_animation.current < a.seq.length := by
  simp only [SequenceAnimator.next_animation]
  cases hr : a.rpt <;> cases hdir : a.state.direction <;> split_ifs with hif <;> simp <;> omega

lemma next_animation_entryOk (a : SequenceAnimator) : entryOk a.next_animation := by
  simp only [entryOk, SequenceAnimator.next_animation]
  cases hr : a.rpt <;> cases hdir : a.state.direction <;> split_ifs <;> simp [hdir]

lemma tickStep_cases (a : SequenceAnimator) (target time_elapsed : ℚ) (entity : ℕ)
    (step : AnimationStep) (hstep : a.seq[a.current]? = some step) :
    ∃ a2 t2 evs o, a.tickStep target time_elapsed entity = some (a2, t2, evs, o) ∧
      a2.seq = a.seq ∧
      (a.current < a.seq.length → a2.current < a2.seq.length) ∧
      (o = 0 ∨ entryOk a2) ∧
      (0 < step.duration → o = 0 ∨ 0 < o) := by
  cases step with
  | Animation anim lens =>
    simp only [AnimationStep.duration]
    simp only [SequenceAnimator.tickStep, hstep]
    split_ifs <;>
      first
        | exact ⟨_, _, _, _, rfl, next_animation_seq _,
            fun h => by rw [next_animation_seq]; exact next_animation_current_lt _ h,
            Or.inr (next_animation_entryOk _),
            fun hd => Or.inr (mul_pos (by linarith) hd)⟩
        | exact ⟨_, _, _, _, rfl, rfl, fun h => h, Or.inl rfl, fun _ => Or.inl rfl⟩
  | Delay delay =>
    simp only [AnimationStep.duration]
    simp only [SequenceAnimator.tickStep, hstep]
    split_ifs <;>
      first
        | exact ⟨_, _, _, _, rfl, next_animation_seq _,
            fun h => by rw [next_animation_seq]; exact next_animation_current_lt _ h,
            Or.inr (next_animation_entryOk _),
            fun hd => Or.inr (mul_pos (by linarith) hd)⟩
        | exact ⟨_, _, _, _, rfl, rfl, fun h => h, Or.inl rfl, fun _ => Or.inl rfl⟩

lemma tick_bounds (fuel : ℕ) (a : SequenceAnimator) (target time_elapsed : ℚ) (entity : ℕ)
    (hinv : a.current < a.seq.length) :
    SequenceAnimator.tick fuel a target time_elapsed entity ≠ .outOfBounds ∧
    ∀ a2 target2 events2,
      SequenceAnimator.tick fuel a target time_elapsed entity = .ok a2 target2 events2 →
      a2.current < a2.seq.length := by
  induction fuel generalizing a target time_elapsed with
  | zero =>
    refine ⟨(by rw [tick_zero]; intro h; cases h), ?_⟩
    intro a2 t2 ev2 heq
    rw [tick_zero] at heq
    cases heq
  | succ n ih =>
    by_cases hcomp : a.state.completed = true
    · rw [tick_succ, if_pos hcomp]
      refine ⟨(by intro h; cases h), ?_⟩
      intro a2 t2 ev2 heq
      obtain ⟨rfl, -, -⟩ := TickOutcome.ok.inj heq
      exact hinv
    · obtain ⟨step, hstep⟩ : ∃ s, a.seq[a.current]? = some s :=
        ⟨_, List.getElem?_eq_getElem hinv⟩
      obtain ⟨a2, t2, evs, o, hts, hseq, hcur, -, -⟩ :=
        tickStep_cases a target time_elapsed entity step hstep
      rw [tick_succ_step n a a2 target t2 time_elapsed o entity evs hcomp hts]
      by_cases ho : o = 0
      · rw [if_neg (by simp [ho])]
        refine ⟨(by intro h; cases h), ?_⟩
        intro a3 t3 ev3 heq
        obtain ⟨rfl, -, -⟩ := TickOutcome.ok.inj heq
        exact hcur hinv
      · obtain ⟨ihne, ihok⟩ := ih a2 t2 o (hcur hinv)
        rw [if_pos ho]
        cases hrec : SequenceAnimator.tick n a2 t2 o entity with
        | ok a3 t3 ev3 =>
          refine ⟨(by intro h; cases h), ?_⟩
          intro a4 t4 ev4 heq
          obtain ⟨rfl, -, -⟩ := TickOutcome.ok.inj heq
          exact ihok _ _ _ hrec
        | outOfBounds => exact absurd hrec ihne
        | fuelOut =>
          refine ⟨(by intro h; cases h), ?_⟩
          intro a4 t4 ev4 heq
          cases heq

lemma exists_min_duration (l : List AnimationStep) (h : ∀ s ∈ l, 0 < s.duration) :
    ∃ d : ℚ, 0 < d ∧ ∀ s ∈ l, d ≤ s.duration := by
  induction l with
  | nil => exact ⟨1, one_pos, by intro s hs; cases hs⟩
  | cons x xs ih =>
    obtain ⟨d, hd, hle⟩ := ih (fun s hs => h s (List.mem_cons_of_mem _ hs))
    refine ⟨min d x.duration, lt_min hd (h x (List.mem_cons_self _ _)), ?_⟩
    intro s hs
    rcases List.mem_cons.mp hs with rfl | hs
    · exact min_le_right _ _
    · exact le_trans (min_le_left _ _) (hle s hs)

lemma tickStep_entry (a : SequenceAnimator) (target time_elapsed : ℚ) (entity : ℕ)
    (step : AnimationStep) (hstep : a.seq[a.current]? = some step)
    (hd : 0 < step.duration) (he : 0 < time_elapsed)
    (hentry : (a.state.direction = .Forward ∧ a.state.progress = 0) ∨
              (a.state.direction = .Backward ∧ a.state.progress = 1)) :
    (time_elapsed ≤ step.duration →
      ∃ a2 t2 evs, a.tickStep target time_elapsed entity = some (a2, t2, evs, 0)) ∧
    (step.duration < time_elapsed →
      ∃ a2 t2 evs, a.tickStep target time_elapsed entity =
          some (a2, t2, evs, time_elapsed - step.duration) ∧
        entryOk a2 ∧ a2.seq = a.seq ∧
        (a.current < a.seq.length → a2.current < a2.seq.length)) := by
  constructor
  · intro hle
    cases step with
    | Animation anim lens =>
      simp only [AnimationStep.duration] at hd hle
      have hq1 : time_elapsed / anim.duration ≤ 1 := (div_le_one hd).mpr hle
      have hq0 : 0 < time_elapsed / anim.duration := div_pos he hd
      simp only [SequenceAnimator.tickStep, hstep]
      rcases hentry with ⟨hdir, hprog⟩ | ⟨hdir, hprog⟩ <;>
        rw [hdir, hprog] <;>
        simp only [AnimationDirection.factor, mul_one, zero_add, mul_neg_one]
      · rw [if_neg (not_lt.mpr hq1), if_neg (not_lt.mpr hq0.le),
          if_neg (not_lt.mpr hq0.le), if_neg (not_lt.mpr hq1)]
        exact ⟨_, _, _, rfl⟩
      · rw [if_neg (not_lt.mpr (by linarith : 1 + -(time_elapsed / anim.duration) ≤ 1)),
          if_neg (not_lt.mpr (by linarith : (0:ℚ) ≤ 1 + -(time_elapsed / anim.duration))),
          if_neg (not_lt.mpr (by linarith : (0:ℚ) ≤ 1 + -(time_elapsed / anim.duration))),
          if_neg (not_lt.mpr (by linarith : 1 + -(time_elapsed / anim.duration) ≤ 1))]
        exact ⟨_, _, _, rfl⟩
    | Delay delay =>
      simp only [AnimationStep.duration] at hd hle
      have hq1 : time_elapsed / delay.duration ≤ 1 := (div_le_one hd).mpr hle
      have hq0 : 0 < time_elapsed / delay.duration := div_pos he hd
      simp only [SequenceAnimator.tickStep, hstep]
      rcases hentry with ⟨hdir, hprog⟩ | ⟨hdir, hprog⟩ <;>
        rw [hdir, hprog] <;>
        simp only [AnimationDirection.factor, mul_one, zero_add, mul_neg_one]
      · rw [if_neg (not_lt.mpr hq1), if_neg (not_lt.mpr hq0.le)]
        exact ⟨_, _, _, rfl⟩
      · rw [if_neg (not_lt.mpr (by linarith : 1 + -(time_elapsed / delay.duration) ≤ 1)),
          if_neg (not_lt.mpr (by linarith : (0:ℚ) ≤ 1 + -(time_elapsed / delay.duration)))]
        exact ⟨_, _, _, rfl⟩
  · intro hgt
    cases step with
    | Animation anim lens =>
      simp only [AnimationStep.duration] at hd hgt ⊢
      have hq1 : 1 < time_elapsed / anim.duration := (one_lt_div hd).mpr hgt
      simp only [SequenceAnimator.tickStep, hstep]
      rcases hentry with ⟨hdir, hprog⟩ | ⟨hdir, hprog⟩ <;>
        rw [hdir, hprog] <;>
        simp only [AnimationDirection.factor, mul_one, zero_add, mul_neg_one]
      · rw [if_pos hq1,
          show (time_elapsed / anim.duration - 1) * anim.duration =
            time_elapsed - anim.duration from by field_simp]
        refine ⟨_, _, _, rfl, next_animation_entryOk _, next_animation_seq _, ?_⟩
        intro h
        rw [next_animation_seq]
        exact next_animation_current_lt _ h
      · rw [if_neg (not_lt.mpr (by linarith : 1 + -(time_elapsed / anim.duration) ≤ 1)),
          if_pos (by linarith : 1 + -(time_elapsed / anim.duration) < 0),
          show (0 - (1 + -(time_elapsed / anim.duration))) * anim.duration =
            time_elapsed - anim.duration from by field_simp; ring]
        refine ⟨_, _, _, rfl, next_animation_entryOk _, next_animation_seq _, ?_⟩
        intro h
        rw [next_animation_seq]
        exact next_animation_current_lt _ h
    | Delay delay =>
      simp only [AnimationStep.duration] at hd hgt ⊢
      have hq1 : 1 < time_elapsed / delay.duration := (one_lt_div hd).mpr hgt
      simp only [SequenceAnimator.tickStep, hstep]
      rcases hentry with ⟨hdir, hprog⟩ | ⟨hdir, hprog⟩ <;>
        rw [hdir, hprog] <;>
        simp only [AnimationDirection.factor, mul_one, zero_add, mul_neg_one]
      · rw [if_pos hq1,
          show (time_elapsed / delay.duration - 1) * delay.duration =
            time_elapsed - delay.duration from by field_simp]
        refine ⟨_, _, _, rfl, next_animation_entryOk _, next_animation_seq _, ?_⟩
        intro h
        rw [next_animation_seq]
        exact next_animation_current_lt _ h
      · rw [if_neg (not_lt.mpr (by linarith : 1 + -(time_elapsed / delay.duration) ≤ 1)),
          if_pos (by linarith : 1 + -(time_elapsed / delay.duration) < 0),
          show (0 - (1 + -(time_elapsed / delay.duration))) * delay.duration =
            time_elapsed - delay.duration from by field_simp; ring]
        refine ⟨_, _, _, rfl, next_animation_entryOk _, next_animation_seq _, ?_⟩
        intro h
        rw [next_animation_seq]
        exact next_animation_current_lt _ h

lemma tick_ok_of_entry (dmin : ℚ) (hdmin : 0 < dmin) :
    ∀ (N : ℕ) (a : SequenceAnimator) (target time_elapsed : ℚ) (entity : ℕ),
      entryOk a → a.current < a.seq.length →
      (∀ s ∈ a.seq, dmin ≤ s.duration) →
      0 < time_elapsed → time_elapsed ≤ (N : ℚ) * dmin →
      ∃ a2 t2 evs,
        SequenceAnimator.tick (N + 1) a target time_elapsed entity = .ok a2 t2 evs := by
  intro N
  induction N with
  | zero =>
    intro a target time_elapsed entity _ _ _ he hN
    exfalso
    push_cast at hN
    linarith
  | succ n ih =>
    intro a target time_elapsed entity hentry hcur hd he hN
    by_cases hcomp : a.state.completed = true
    · exact ⟨a, target, [], by rw [tick_succ, if_pos hcomp]⟩
    have hentry2 : (a.state.direction = .Forward ∧ a.state.progress = 0) ∨
        (a.state.direction = .Backward ∧ a.state.progress = 1) := by
      rcases hentry with h | h | h
      · exact absurd h hcomp
      · exact Or.inl h
      · exact Or.inr h
    obtain ⟨step, hstep⟩ : ∃ s, a.seq[a.current]? = some s :=
      ⟨_, List.getElem?_eq_getElem hcur⟩
    have hdstep : dmin ≤ step.duration := hd _ (List.getElem?_mem hstep)
    have hdpos : 0 < step.duration := lt_of_lt_of_le hdmin hdstep
    obtain ⟨hle, hgt⟩ := tickStep_entry a target time_elapsed entity step hstep hdpos he hentry2
    by_cases hcase : time_elapsed ≤ step.duration
    · obtain ⟨a2, t2, evs, hts⟩ := hle hcase
      refine ⟨a2, t2, evs, ?_⟩
      rw [tick_succ_step (n + 1) a a2 target t2 time_elapsed 0 entity evs hcomp hts,
        if_neg (by simp)]
    · push_neg at hcase
      obtain ⟨a2, t2, evs, hts, hent2, hseq2, hcur2⟩ := hgt hcase
      have ho : (0:ℚ) < time_elapsed - step.duration := by linarith
      have hobound : time_elapsed - step.duration ≤ (n : ℚ) * dmin := by
        push_cast at hN ⊢
        linarith
      obtain ⟨a3, t3, evs3, h3⟩ := ih a2 t2 (time_elapsed - step.duration) entity hent2
        (hcur2 hcur) (by rw [hseq2]; exact hd) ho hobound
      refine ⟨a3, t3, evs ++ evs3, ?_⟩
      rw [tick_succ_step (n + 1) a a2 target t2 time_elapsed (time_elapsed - step.duration)
        entity evs hcomp hts, if_pos (ne_of_gt ho), h3]

/-- C4: overtime recursion terminates: for every sequence animator whose
steps all have strictly positive duration and whose `current` index is in
bounds, and every non-negative elapsed time, some finite fuel makes the
recursive overtime re-ticking of `SequenceAnimator::tick` return. -/
theorem overtime_recursion_terminates (a : SequenceAnimator) (target time_elapsed : ℚ)
    (entity : ℕ)
    (hd : ∀ s ∈ a.seq, 0 < s.duration)
    (hcur : a.current < a.seq.length)
    (_he : 0 ≤ time_elapsed) :
    ∃ fuel a2 t2 evs,
      SequenceAnimator.tick fuel a target time_elapsed entity = .ok a2 t2 evs := by
  by_cases hcomp : a.state.completed = true
  · exact ⟨0 + 1, a, target, [], by rw [tick_succ, if_pos hcomp]⟩
  obtain ⟨step, hstep⟩ : ∃ s, a.seq[a.current]? = some s :=
    ⟨_, List.getElem?_eq_getElem hcur⟩
  have hdpos : 0 < step.duration := hd _ (List.getElem?_mem hstep)
  obtain ⟨a2, t2, evs, o, hts, hseq, hcurp, hoe, hop⟩ :=
    tickStep_cases a target time_elapsed entity step hstep
  by_cases ho : o = 0
  · subst ho
    exact ⟨0 + 1, a2, t2, evs, by
      rw [tick_succ_step 0 a a2 target t2 time_elapsed 0 entity evs hcomp hts,
        if_neg (by simp)]⟩
  · have hopos : 0 < o := ((hop hdpos).resolve_left ho)
    have hent : entryOk a2 := hoe.resolve_left ho
    obtain ⟨dmin, hdmin, hdle⟩ := exists_min_duration a.seq hd
    obtain ⟨N, hN⟩ := exists_nat_ge (o / dmin)
    have hON : o ≤ (N : ℚ) * dmin := by
      rw [div_le_iff₀ hdmin] at hN
      linarith
    obtain ⟨a3, t3, evs3, h3⟩ := tick_ok_of_entry dmin hdmin N a2 t2 o entity hent
      (hcurp hcur) (by rw [hseq]; exact hdle) hopos hON
    exact ⟨(N + 1) + 1, a3, t3, evs ++ evs3, by
      rw [tick_succ_step (N + 1) a a2 target t2 time_elapsed o entity evs hcomp hts,
        if_pos ho, h3]⟩

/-- Witness for `overtime_recursion_terminates`: ticking the fresh two-step
one-second `Once` sequence with elapsed time 5 s returns under some fuel. -/
theorem overtime_recursion_terminates_witness :
    ∃ fuel a2 t2 evs,
      SequenceAnimator.tick fuel seqTwoOnce 0 5 3 = .ok a2 t2 evs :=
  overtime_recursion_terminates seqTwoOnce 0 5 3
    (by
      intro s hs
      simp only [seqTwoOnce, SequenceAnimator.new] at hs
      fin_cases hs <;> norm_num [AnimationStep.duration, oneSecAnim])
    (by norm_num [seqTwoOnce, SequenceAnimator.new])
    (by norm_num)

/-- C2: the sequence step-transition behaviour: `next_animation` realises
exactly the spec's twelve-case `advance_step` table on `(repeat, direction,
current)`, and when a tick layer crosses a boundary (integrated progress
above 1.0 or below 0.0) the emitted completion event carries the
pre-advance `current` index. -/
theorem advance_step_matches_table (a : SequenceAnimator) (target time_elapsed : ℚ)
    (entity : ℕ) (hc : a.state.completed = false) :
    ((a.next_animation.current, a.next_animation.state.progress,
      a.next_animation.state.direction, a.next_animation.state.completed) =
      advance_step_table a.rpt a.state.direction a.current (a.seq.length - 1)) ∧
    (∀ step, a.seq[a.current]? = some step →
      (1 < a.state.progress + time_elapsed / step.duration * a.state.direction.factor ∨
        a.state.progress + time_elapsed / step.duration * a.state.direction.factor < 0) →
      ∃ r, a.tickStep target time_elapsed entity = some r ∧
        r.2.2.1 = [{ entity := entity, animator_id := a.id, animation_id := a.current }]) := by
  constructor
  · simp only [SequenceAnimator.next_animation, advance_step_table]
    cases hr : a.rpt <;> cases hdir : a.state.direction <;> split_ifs <;> simp [hc]
  · intro step hstep hcross
    cases step with
    | Animation anim lens =>
      simp only [AnimationStep.duration] at hcross
      simp only [SequenceAnimator.tickStep, hstep]
      rcases hcross with h | h
      · rw [if_pos h]
        exact ⟨_, rfl, rfl⟩
      · rw [if_neg (by linarith), if_pos h]
        exact ⟨_, rfl, rfl⟩
    | Delay delay =>
      simp only [AnimationStep.duration] at hcross
      simp only [SequenceAnimator.tickStep, hstep]
      rcases hcross with h | h
      · rw [if_pos h]
        exact ⟨_, rfl, rfl⟩
      · rw [if_neg (by linarith), if_pos h]
        exact ⟨_, rfl, rfl⟩

/-- Witness for `advance_step_matches_table` on the fresh two-delay mirrored
sequence. -/
theorem advance_step_matches_table_witness :
    (seqTwoDelays.next_animation.current, seqTwoDelays.next_animation.state.progress,
      seqTwoDelays.next_animation.state.direction, seqTwoDelays.next_animation.state.completed) =
      advance_step_table seqTwoDelays.rpt seqTwoDelays.state.direction seqTwoDelays.current
        (seqTwoDelays.seq.length - 1) :=
  (advance_step_matches_table seqTwoDelays 0 0 0 rfl).1

/-- C8: step-index bounds safety: a sequence animator built by `new` from a
nonempty list starts with `current` in bounds, and for every animator whose
`current` is in bounds a tick of any fuel never reaches the out-of-bounds
indexing branch and every returned animator again has `current` in bounds. -/
theorem step_index_bounds (seq : List AnimationStep) (rpt : Repeat) (hne : seq ≠ [])
    (fuel : ℕ) (a : SequenceAnimator) (target time_elapsed : ℚ) (entity : ℕ)
    (hinv : a.current < a.seq.length) :
    (SequenceAnimator.new seq rpt).current < (SequenceAnimator.new seq rpt).seq.length ∧
    SequenceAnimator.tick fuel a target time_elapsed entity ≠ .outOfBounds ∧
    ∀ a2 target2 events2,
      SequenceAnimator.tick fuel a target time_elapsed entity = .ok a2 target2 events2 →
      a2.current < a2.seq.length := by
  refine ⟨?_, tick_bounds fuel a target time_elapsed entity hinv⟩
  simpa [SequenceAnimator.new] using List.length_pos.mpr hne

/-- Witness for `step_index_bounds` on the one-delay always sequence. -/
theorem step_index_bounds_witness :
    SequenceAnimator.tick 1 seqOneDelay 0 2 5 ≠ .outOfBounds :=
  (step_index_bounds [.Delay { duration := 1 }] .Always (by simp) 1 seqOneDelay 0 2 5
    (by norm_num [seqOneDelay, SequenceAnimator.new])).2.1

end BevyToolbox
